import Mathlib

/-!
# bdd-go: the arc routine, the frame handler and two vendored helpers

A shallow embedding of

* `circle` and the frame branch of `loop` from `main.go`,
* `Modifiers.Contain` from `gioui.org/io/key/key.go`,
* the button loop of `DecorationsStyle.layoutDecorations` from
  `gioui.org/widget/material/decorations.go`.

Floating point numbers are read as elements of a field `K` (the reals in the
theorems, the rationals when a definition is evaluated); `math.Pi` is the
parameter `pi`.
-/

namespace BddGo

/-! ## main.go: `circle` -/

/-- The methods of `*turtle.TurtleDraw` that `main.go` calls, as recorded calls. -/
inductive TurtleCall (K : Type) where
  | Forward (d : K)
  | Right (a : K)
  | PenUp
  | PenDown
  | SetPos (x y : K)
  | SetHeading (a : K)
  | SetColor (c : Nat)
  | SetSize (n : Int)
  deriving DecidableEq, Repr

/-- The local `steps := 30` of `circle`. -/
def steps : Nat := 30

/-- The local `step` of `circle`:
`circumference := 2 * math.Pi * radius`, `distance := circumference * extent / 360`,
`step := distance / float64(steps)`. -/
def circleStep {K : Type} [Field K] (pi radius extent : K) : K :=
  let circumference := 2 * pi * radius
  let distance := circumference * extent / 360
  distance / (steps : K)

/-- The local `rotation := extent / float64(steps)` of `circle`. -/
def circleRotation {K : Type} [Field K] (extent : K) : K :=
  extent / (steps : K)

/-- The loop `for i := uint32(0); i < 30; i++ { t.Forward(step); t.Right(rotation); Sleep }`
started at counter value `i`; `calls` are the turtle calls made so far. -/
def circleLoop {K : Type} (step rotation : K) (i : Nat) (calls : List (TurtleCall K)) :
    List (TurtleCall K) :=
  if h : i < 30 then
    circleLoop step rotation ((i + 1) % 2 ^ 32)
      (calls ++ [TurtleCall.Forward step, TurtleCall.Right rotation])
  else
    calls
termination_by 30 - i
decreasing_by omega

/-- The function `circle(t, radius, extent)`: the sequence of calls it makes on `t`. -/
def circle {K : Type} [Field K] (pi radius extent : K) : List (TurtleCall K) :=
  circleLoop (circleStep pi radius extent) (circleRotation extent) 0 []

/-- The distances passed to `Forward`, in call order. -/
def forwardDistances {K : Type} : List (TurtleCall K) → List K
  | [] => []
  | TurtleCall.Forward d :: cs => d :: forwardDistances cs
  | _ :: cs => forwardDistances cs

/-- The angles passed to `Right`, in call order. -/
def rightAngles {K : Type} : List (TurtleCall K) → List K
  | [] => []
  | TurtleCall.Right a :: cs => a :: rightAngles cs
  | _ :: cs => rightAngles cs

/-- The body of one loop iteration of `circle`, written out `n` times: the closed form
the loop is compared with. -/
def chordCalls {K : Type} (step rotation : K) : Nat → List (TurtleCall K)
  | 0 => []
  | n + 1 => TurtleCall.Forward step :: TurtleCall.Right rotation :: chordCalls step rotation n

/-! ## The turtle that `circle` drives (package `go-turtle`, not among the sources) -/

/-- Modelled from the spec: the Turtle of the data model (position, heading in degrees,
pen state, stroke colour, stroke width); the `go-turtle` package that implements it is
missing from the sources. -/
structure Turtle (K : Type) where
  x : K
  y : K
  heading : K
  penDown : Bool
  color : Nat
  size : Int

/-- Modelled from the spec: what the spec leaves open about the missing `go-turtle`
package. `cosDeg` and `sinDeg` are cosine and sine of an angle in degrees, `dir` is the
fixed rotation direction of `Right` (`1` or `-1`), and `norm` is the normalisation of a
heading (a map that changes an angle by a multiple of 360, or not at all). -/
structure TurtleSem (K : Type) where
  cosDeg : K → K
  sinDeg : K → K
  dir : K
  norm : K → K

/-- Modelled from the spec: the effect of one turtle call from the missing `go-turtle`
package. `forward(distance)` moves by `distance * (cos heading, sin heading)` whatever
the pen state, `turn` adds to the heading and normalises, `setHeading` sets the
normalised heading, `setPosition` teleports, the rest set pen state and style. -/
def Turtle.apply {K : Type} [Field K] (sem : TurtleSem K) (t : Turtle K) :
    TurtleCall K → Turtle K
  | TurtleCall.Forward d =>
      { t with x := t.x + d * sem.cosDeg t.heading, y := t.y + d * sem.sinDeg t.heading }
  | TurtleCall.Right a => { t with heading := sem.norm (t.heading + sem.dir * a) }
  | TurtleCall.PenUp => { t with penDown := false }
  | TurtleCall.PenDown => { t with penDown := true }
  | TurtleCall.SetPos x y => { t with x := x, y := y }
  | TurtleCall.SetHeading a => { t with heading := sem.norm a }
  | TurtleCall.SetColor c => { t with color := c }
  | TurtleCall.SetSize n => { t with size := n }

/-- A sequence of calls applied to a turtle, first call first. -/
def Turtle.run {K : Type} [Field K] (sem : TurtleSem K) (t : Turtle K)
    (calls : List (TurtleCall K)) : Turtle K :=
  calls.foldl (Turtle.apply sem) t

/-! ## main.go: one pass of the event loop of `loop` -/

/-- What one frame records into `ops`, in order. `Label` is the text widget
`material.Body1(th, text)` with the font variant, boldness and text size set on it. -/
inductive FrameOp where
  | ImageOp
  | PaintOp
  | Offset (x y : Int)
  | Label (text : String) (variant : String) (bold : Bool) (textSizeDp : Nat)
  | InvalidateOp
  deriving DecidableEq, Repr

/-- The events `loop` receives from `w.Events()`. -/
inductive Event where
  | DestroyEvent (err : Option String)
  | FrameEvent
  | Other
  deriving DecidableEq, Repr

/-- The outcome of one pass of the `for` loop of `loop`. -/
inductive LoopStep where
  | Return (err : Option String)
  | Frame (ops : List FrameOp)
  | Ignored
  deriving DecidableEq, Repr

/-- One pass of the `for` loop of `loop`: the `switch` on the event, with the value the
global `completed` has when the frame is handled. The value of `op.Affine(...)` is
dropped by the source without `Add`, so it records nothing. -/
def loopHandle (completed : Bool) : Event → LoopStep
  | Event.DestroyEvent err => LoopStep.Return err
  | Event.FrameEvent =>
      LoopStep.Frame
        ([FrameOp.ImageOp, FrameOp.PaintOp] ++
          (if completed then
            [FrameOp.Offset 240 450, FrameOp.Label "BEIJING 2022" "Mono" true 5]
          else
            [FrameOp.InvalidateOp]))
  | Event.Other => LoopStep.Ignored

/-! ## gioui.org/io/key: `Modifiers.Contain` -/

/-- The type `Modifiers uint32`. -/
abbrev Modifiers := Fin (2 ^ 32)

/-- The method `(m Modifiers) Contain(m2 Modifiers) bool`: `m&m2 == m2`. -/
def Modifiers.Contain (m m2 : Modifiers) : Bool :=
  (m &&& m2) == m2

/-! ## gioui.org/widget/material: the button loop of `layoutDecorations` -/

/-- The declarations of `gioui.org/io/system` that the button loop uses; that package
is not among the sources, so they are parameters: the width in bits of the integer
type `system.Action` (its values are read as bit patterns of that width), and the four
action constants. -/
structure ActionConsts where
  bits : Nat
  ActionMinimize : Nat
  ActionMaximize : Nat
  ActionUnmaximize : Nat
  ActionClose : Nat

/-- The icon widgets of `decorations.go` that a button can show. -/
inductive Icon where
  | minimizeWindow
  | maximizeWindow
  | maximizedWindow
  | closeWindow
  deriving DecidableEq, Repr

/-- The type `image.Point`. -/
structure Point where
  X : Int
  Y : Int
  deriving DecidableEq, Repr

/-- One laid-out button: the action `a` given to `d.Decorations.Clickable(a)` and the
icon widget `w` drawn in it. -/
structure Button where
  action : Nat
  icon : Icon
  deriving DecidableEq, Repr

/-- The variables of the button loop: the counter `a`, the remaining `actions`, the
accumulated `size`, and the buttons laid out so far. -/
structure DecoState where
  a : Nat
  actions : Nat
  size : Point
  laid : List Button
  deriving DecidableEq, Repr

/-- Go's `x &^ y` (bit clear, `x & ^y`): the bits of `x` without those it shares with
`y`. -/
def andNot (x y : Nat) : Nat :=
  x ^^^ (x &&& y)

/-- Go's `a <<= 1` on an unsigned integer of `bits` bits. -/
def shl1 (bits a : Nat) : Nat :=
  (a <<< 1) % 2 ^ bits

/-- Go's `+` on the signed integer type `int` of `bits` bits (two's complement
wrap-around). -/
def addInt (bits : Nat) (x y : Int) : Int :=
  (x + y + 2 ^ (bits - 1)) % 2 ^ bits - 2 ^ (bits - 1)

/-- The `switch a` of the button loop: the icon for action `a`, or `none` for the
`default: continue` branch. Cases are tried in source order. -/
def iconFor (c : ActionConsts) (maximized : Bool) (a : Nat) : Option Icon :=
  if a = c.ActionMinimize then some Icon.minimizeWindow
  else if a = c.ActionMaximize then
    some (if maximized then Icon.maximizedWindow else Icon.maximizeWindow)
  else if a = c.ActionClose then some Icon.closeWindow
  else none

/-- The update of `size` after a button of dimensions `dims`:
`size.X += dims.Size.X; if size.Y < dims.Size.Y { size.Y = dims.Size.Y }`. -/
def growSize (bits : Nat) (size dims : Point) : Point :=
  { X := addInt bits size.X dims.X, Y := if size.Y < dims.Y then dims.Y else size.Y }

/-- The loop `for a := system.Action(1); actions != 0; a <<= 1 { ... }`, run for at most
`fuel` evaluations of its condition; `none` when the fuel does not suffice.
`intBits` is the width of the Go type `int` of the coordinates of `image.Point`,
`maximized` is `d.Decorations.Maximized()` and `layoutButton a w` is the size that
`cl.Layout` returns for the button of action `a` with icon `w`. -/
def buttonLoop (c : ActionConsts) (intBits : Nat) (maximized : Bool)
    (layoutButton : Nat → Icon → Point) : Nat → DecoState → Option DecoState
  | 0, _ => none
  | fuel + 1, s =>
    if s.actions = 0 then some s
    else if s.a &&& s.actions = 0 then
      buttonLoop c intBits maximized layoutButton fuel { s with a := shl1 c.bits s.a }
    else
      let actions := andNot s.actions s.a
      match iconFor c maximized s.a with
      | none =>
        buttonLoop c intBits maximized layoutButton fuel
          { s with a := shl1 c.bits s.a, actions := actions }
      | some w =>
        buttonLoop c intBits maximized layoutButton fuel
          { a := shl1 c.bits s.a
            actions := actions
            size := growSize intBits s.size (layoutButton s.a w)
            laid := s.laid ++ [{ action := s.a, icon := w }] }

/-- The `layout.Rigid` closure of `layoutDecorations`: `actions := d.Actions &^
system.ActionUnmaximize`, `size` zero, then the button loop; the result carries the
returned `size` and the buttons laid out. -/
def layoutButtons (c : ActionConsts) (intBits : Nat) (maximized : Bool)
    (layoutButton : Nat → Icon → Point) (fuel : Nat) (dActions : Nat) : Option DecoState :=
  buttonLoop c intBits maximized layoutButton fuel
    { a := 1, actions := andNot dActions c.ActionUnmaximize, size := ⟨0, 0⟩, laid := [] }

/-- The buttons the loop is expected to lay out for the bits `k, k + 1, ..., k + n - 1` of
the action set `acts`, lowest bit first: the closed form the loop is compared with. -/
def laidFrom (c : ActionConsts) (maximized : Bool) (acts : Nat) : Nat → Nat → List Button
  | 0, _ => []
  | n + 1, k =>
    (if acts.testBit k then
      match iconFor c maximized (2 ^ k) with
      | some w => [{ action := 2 ^ k, icon := w }]
      | none => []
    else []) ++ laidFrom c maximized acts n (k + 1)

/-- The action constants as bits of a word of `c.bits` bits: each constant is a single
bit inside the word, and the four are different. -/
def ActionConsts.WellFormed (c : ActionConsts) : Prop :=
  (∃ i, i < c.bits ∧ c.ActionMinimize = 2 ^ i) ∧
  (∃ i, i < c.bits ∧ c.ActionMaximize = 2 ^ i) ∧
  (∃ i, i < c.bits ∧ c.ActionUnmaximize = 2 ^ i) ∧
  (∃ i, i < c.bits ∧ c.ActionClose = 2 ^ i) ∧
  [c.ActionMinimize, c.ActionMaximize, c.ActionUnmaximize, c.ActionClose].Nodup

instance (c : ActionConsts) : Decidable c.WellFormed := by
  unfold ActionConsts.WellFormed
  infer_instance

/-! ### The calls of `circle` in closed form -/

theorem circleLoop_eq {K : Type} (step rotation : K) (n : Nat) :
    ∀ (i : Nat) (calls : List (TurtleCall K)), i + n = 30 →
      circleLoop step rotation i calls = calls ++ chordCalls step rotation n := by
  induction n with
  | zero =>
    intro i calls h
    rw [circleLoop]
    simp [chordCalls, show ¬ i < 30 by omega]
  | succ n ih =>
    intro i calls h
    rw [circleLoop]
    have hi : i < 30 := by omega
    have hm : (i + 1) % 2 ^ 32 = i + 1 := Nat.mod_eq_of_lt (by omega)
    simp only [hi, dite_true, hm]
    rw [ih (i + 1) _ (by omega)]
    simp [chordCalls]

theorem circle_eq {K : Type} [Field K] (pi radius extent : K) :
    circle pi radius extent
      = chordCalls (circleStep pi radius extent) (circleRotation extent) 30 := by
  unfold circle
  rw [circleLoop_eq _ _ 30 0 [] rfl]
  simp

theorem forwardDistances_chordCalls {K : Type} (step rotation : K) (n : Nat) :
    forwardDistances (chordCalls step rotation n) = List.replicate n step := by
  induction n with
  | zero => rfl
  | succ n ih => simp [chordCalls, forwardDistances, ih, List.replicate_succ]

theorem rightAngles_chordCalls {K : Type} (step rotation : K) (n : Nat) :
    rightAngles (chordCalls step rotation n) = List.replicate n rotation := by
  induction n with
  | zero => rfl
  | succ n ih => simp [chordCalls, forwardDistances, rightAngles, ih, List.replicate_succ]

theorem chordCalls_length {K : Type} (step rotation : K) (n : Nat) :
    (chordCalls step rotation n).length = 2 * n := by
  induction n with
  | zero => rfl
  | succ n ih => simp [chordCalls, ih]; omega

theorem chordCalls_get {K : Type} (step rotation : K) (n : Nat) :
    ∀ k, k < n →
      (chordCalls step rotation n)[2 * k]? = some (TurtleCall.Forward step) ∧
      (chordCalls step rotation n)[2 * k + 1]? = some (TurtleCall.Right rotation) := by
  induction n with
  | zero => intro k hk; omega
  | succ n ih =>
    intro k hk
    cases k with
    | zero => simp [chordCalls]
    | succ k =>
      have := ih k (by omega)
      have e1 : 2 * (k + 1) = (2 * k) + 1 + 1 := by ring
      rw [e1]
      simpa [chordCalls] using this


theorem chordCalls_mem {K : Type} (step rotation : K) (n : Nat) :
    ∀ call ∈ chordCalls step rotation n,
      call = TurtleCall.Forward step ∨ call = TurtleCall.Right rotation := by
  induction n with
  | zero => intro call h; simp [chordCalls] at h
  | succ n ih =>
    intro call h
    simp only [chordCalls, List.mem_cons] at h
    rcases h with h | h | h
    · exact Or.inl h
    · exact Or.inr h
    · exact ih call h

/-- The routine evaluated over the rationals with 3 in the place of `math.Pi`:
`circle(t, -30, 150)` makes thirty steps of `-5/2` and thirty turns of `5`. -/
theorem circle_rational_sample :
    circle (3 : ℚ) (-30) 150 = chordCalls (-5 / 2) 5 30 := by
  rw [circle_eq]
  norm_num [circleStep, circleRotation, steps]

/-! ## Claims about the calls `circle` makes -/

theorem steps_cast_real : ((steps : Nat) : ℝ) = 30 := by
  simp [steps]

theorem circleStep_real (radius extent : ℝ) :
    circleStep Real.pi radius extent = 2 * Real.pi * radius * extent / (360 * 30) := by
  simp only [circleStep, steps_cast_real]
  ring

theorem circleRotation_real (extent : ℝ) : circleRotation extent = extent / 30 := by
  simp only [circleRotation, steps_cast_real]

/-- C1: for every radius and extent over the reals, `circle` passes to `Right` thirty
angles, each `extent / 30`, and these angles sum to exactly `extent`, whatever the
radius. -/
theorem circle_turns_sum_to_extent (radius extent : ℝ) :
    rightAngles (circle Real.pi radius extent) = List.replicate 30 (extent / 30) ∧
    (rightAngles (circle Real.pi radius extent)).sum = extent := by
  rw [circle_eq, rightAngles_chordCalls, circleRotation_real]
  refine ⟨rfl, ?_⟩
  simp only [List.sum_replicate, nsmul_eq_mul]
  push_cast
  ring

/-- C3, as stated, fails: for `radius = -30`, `extent = 150` (a call the script makes)
each of the thirty distances passed to `Forward` is negative and differs from
`arcLength / 30` with `arcLength = 2 * pi * |radius| * |extent| / 360`. -/
theorem circle_forward_distance_negative :
    (forwardDistances (circle Real.pi (-30 : ℝ) 150)).length = 30 ∧
    ∀ d ∈ forwardDistances (circle Real.pi (-30 : ℝ) 150),
      d < 0 ∧ d ≠ 2 * Real.pi * |(-30 : ℝ)| * |(150 : ℝ)| / 360 / 30 := by
  rw [circle_eq, forwardDistances_chordCalls, circleStep_real]
  refine ⟨by simp, ?_⟩
  intro d hd
  rw [List.eq_of_mem_replicate hd]
  have hpi := Real.pi_pos
  have h30 : |(-30 : ℝ)| = 30 := by norm_num [abs_of_nonneg]
  have h150 : |(150 : ℝ)| = 150 := by norm_num [abs_of_nonneg]
  rw [h30, h150]
  constructor
  · nlinarith
  · intro h
    nlinarith

/-- C3, amended: for every radius and extent, each of the thirty distances passed to
`Forward` is the signed value `2 * pi * radius * extent / (360 * 30)`; its absolute value
is `arcLength / 30` with `arcLength = 2 * pi * |radius| * |extent| / 360`; it is
non-negative exactly when `radius * extent` is; the thirty distances sum to
`2 * pi * radius * extent / 360`; and negating the radius negates every distance. -/
theorem circle_forward_distance_signed (radius extent : ℝ) :
    forwardDistances (circle Real.pi radius extent)
      = List.replicate 30 (2 * Real.pi * radius * extent / (360 * 30)) ∧
    |2 * Real.pi * radius * extent / (360 * 30)|
      = 2 * Real.pi * |radius| * |extent| / 360 / 30 ∧
    (0 ≤ 2 * Real.pi * radius * extent / (360 * 30) ↔ 0 ≤ radius * extent) ∧
    (forwardDistances (circle Real.pi radius extent)).sum
      = 2 * Real.pi * radius * extent / 360 ∧
    forwardDistances (circle Real.pi (-radius) extent)
      = (forwardDistances (circle Real.pi radius extent)).map (fun d => -d) := by
  have hpi := Real.pi_pos
  rw [circle_eq, circle_eq, forwardDistances_chordCalls, forwardDistances_chordCalls,
    circleStep_real, circleStep_real]
  refine ⟨rfl, ?_, ?_, ?_, ?_⟩
  · rw [abs_div, abs_mul, abs_mul, abs_mul, abs_of_pos hpi]
    norm_num [abs_of_nonneg]
    ring
  · have e : 2 * Real.pi * radius * extent / (360 * 30)
        = (Real.pi / 5400) * (radius * extent) := by ring
    rw [e]
    have hc : 0 < Real.pi / 5400 := by positivity
    exact mul_nonneg_iff_of_pos_left hc
  · simp only [List.sum_replicate, nsmul_eq_mul]
    push_cast
    ring
  · simp only [List.map_replicate]
    congr 1
    ring

/-- C4: for every radius and extent, `circle` makes exactly sixty turtle calls: for each
`k < 30` call `2k` is `Forward` with one and the same distance and call `2k + 1` is
`Right` with one and the same angle, so there are thirty `Forward` and thirty `Right`
calls, alternating and beginning with `Forward`, and every call is one of these two. -/
theorem circle_call_sequence (radius extent : ℝ) :
    (circle Real.pi radius extent).length = 60 ∧
    (∀ k : Fin 30,
      (circle Real.pi radius extent)[2 * k.val]?
        = some (TurtleCall.Forward (circleStep Real.pi radius extent)) ∧
      (circle Real.pi radius extent)[2 * k.val + 1]?
        = some (TurtleCall.Right (circleRotation extent))) ∧
    (∀ call ∈ circle Real.pi radius extent,
      call = TurtleCall.Forward (circleStep Real.pi radius extent) ∨
      call = TurtleCall.Right (circleRotation extent)) ∧
    (forwardDistances (circle Real.pi radius extent)).length = 30 ∧
    (rightAngles (circle Real.pi radius extent)).length = 30 := by
  rw [circle_eq, forwardDistances_chordCalls, rightAngles_chordCalls, chordCalls_length]
  refine ⟨rfl, ?_, chordCalls_mem _ _ 30, by simp, by simp⟩
  intro k
  exact chordCalls_get _ _ 30 k.val k.isLt

/-- C10: for every radius and extent, `circle(t, -radius, -extent)` passes to `Forward`
the same distances as `circle(t, radius, extent)` and to `Right` the negated angles;
every `Forward` distance is `2 * pi * radius * extent / (360 * 30)` and has the sign of
`radius * extent`, so with radius and extent of opposite signs every step is backward. -/
theorem circle_neg_neg (radius extent : ℝ) :
    forwardDistances (circle Real.pi (-radius) (-extent))
      = forwardDistances (circle Real.pi radius extent) ∧
    rightAngles (circle Real.pi (-radius) (-extent))
      = (rightAngles (circle Real.pi radius extent)).map (fun a => -a) ∧
    forwardDistances (circle Real.pi radius extent)
      = List.replicate 30 (2 * Real.pi * radius * extent / (360 * 30)) ∧
    SignType.sign (2 * Real.pi * radius * extent / (360 * 30))
      = SignType.sign (radius * extent) := by
  have hpi := Real.pi_pos
  rw [circle_eq, circle_eq, forwardDistances_chordCalls, forwardDistances_chordCalls,
    rightAngles_chordCalls, rightAngles_chordCalls, circleStep_real, circleStep_real,
    circleRotation_real, circleRotation_real]
  refine ⟨?_, ?_, rfl, ?_⟩
  · congr 1
    ring
  · simp only [List.map_replicate]
    congr 1
    ring
  · have e : 2 * Real.pi * radius * extent / (360 * 30)
        = (Real.pi / 5400) * (radius * extent) := by ring
    have hc : 0 < Real.pi / 5400 := by positivity
    rw [e, sign_mul, sign_pos hc, one_mul]


/-! ## Claims about the turtle after `circle` -/

theorem run_chordCalls_succ {K : Type} [Field K] (sem : TurtleSem K) (t : Turtle K)
    (step rotation : K) (n : Nat) :
    Turtle.run sem t (chordCalls step rotation (n + 1))
      = Turtle.run sem
          (Turtle.apply sem (Turtle.apply sem t (TurtleCall.Forward step))
            (TurtleCall.Right rotation))
          (chordCalls step rotation n) := by
  simp [Turtle.run, chordCalls]

/-- Zero-length chords leave the position where it was. -/
theorem run_chordCalls_zero_step {K : Type} [Field K] (sem : TurtleSem K)
    (rotation : K) (n : Nat) :
    ∀ t : Turtle K,
      (Turtle.run sem t (chordCalls 0 rotation n)).x = t.x ∧
      (Turtle.run sem t (chordCalls 0 rotation n)).y = t.y := by
  induction n with
  | zero => intro t; simp [Turtle.run, chordCalls]
  | succ n ih =>
    intro t
    rw [run_chordCalls_succ]
    obtain ⟨hx, hy⟩ := ih (Turtle.apply sem (Turtle.apply sem t (TurtleCall.Forward 0))
      (TurtleCall.Right rotation))
    rw [hx, hy]
    simp [Turtle.apply]

/-- The calls of `circle` touch neither the pen nor the style. -/
theorem run_chordCalls_frame {K : Type} [Field K] (sem : TurtleSem K)
    (step rotation : K) (n : Nat) :
    ∀ t : Turtle K,
      (Turtle.run sem t (chordCalls step rotation n)).penDown = t.penDown ∧
      (Turtle.run sem t (chordCalls step rotation n)).color = t.color ∧
      (Turtle.run sem t (chordCalls step rotation n)).size = t.size := by
  induction n with
  | zero => intro t; simp [Turtle.run, chordCalls]
  | succ n ih =>
    intro t
    rw [run_chordCalls_succ]
    obtain ⟨h1, h2, h3⟩ := ih (Turtle.apply sem (Turtle.apply sem t (TurtleCall.Forward step))
      (TurtleCall.Right rotation))
    rw [h1, h2, h3]
    simp [Turtle.apply]

/-- After `n` iterations the heading has moved by `n` turns, up to whole turns of 360
degrees added by the normalisation. -/
theorem run_chordCalls_heading (sem : TurtleSem ℝ)
    (hnorm : ∀ a, ∃ k : ℤ, sem.norm a = a + 360 * k) (step rotation : ℝ) (n : Nat) :
    ∀ t : Turtle ℝ, ∃ k : ℤ,
      (Turtle.run sem t (chordCalls step rotation n)).heading
        = t.heading + n * (sem.dir * rotation) + 360 * k := by
  induction n with
  | zero => intro t; exact ⟨0, by simp [Turtle.run, chordCalls]⟩
  | succ n ih =>
    intro t
    rw [run_chordCalls_succ]
    obtain ⟨k, hk⟩ := ih (Turtle.apply sem (Turtle.apply sem t (TurtleCall.Forward step))
      (TurtleCall.Right rotation))
    obtain ⟨k0, hk0⟩ := hnorm (t.heading + sem.dir * rotation)
    refine ⟨k + k0, ?_⟩
    rw [hk]
    simp only [Turtle.apply, hk0]
    push_cast
    ring

theorem circleStep_zero (radius extent : ℝ) (h : radius = 0 ∨ extent = 0) :
    circleStep Real.pi radius extent = 0 := by
  rw [circleStep_real]
  rcases h with h | h <;> simp [h]

/-- C5: for every radius and extent with `radius = 0` or `extent = 0`, `circle` makes all
of its sixty calls, every distance passed to `Forward` is exactly 0, and, with `Forward`
moving by `d * (cos heading, sin heading)`, the position after the call is the position
before it, for every turtle and every choice of the turtle's conventions. -/
theorem circle_degenerate_stays (radius extent : ℝ) (h : radius = 0 ∨ extent = 0)
    (sem : TurtleSem ℝ) (t : Turtle ℝ) :
    (circle Real.pi radius extent).length = 60 ∧
    (∀ d ∈ forwardDistances (circle Real.pi radius extent), d = 0) ∧
    (Turtle.run sem t (circle Real.pi radius extent)).x = t.x ∧
    (Turtle.run sem t (circle Real.pi radius extent)).y = t.y := by
  rw [circle_eq, circleStep_zero radius extent h, forwardDistances_chordCalls,
    chordCalls_length]
  refine ⟨rfl, ?_, run_chordCalls_zero_step sem _ 30 t⟩
  intro d hd
  exact List.eq_of_mem_replicate hd

/-- C5 at `radius = 0`, `extent = 90`, from position (50, 50) with heading 0. -/
theorem circle_degenerate_stays_witness :
    ((0 : ℝ) = 0 ∨ (90 : ℝ) = 0) ∧
    (circle Real.pi (0 : ℝ) 90).length = 60 ∧
    (∀ d ∈ forwardDistances (circle Real.pi (0 : ℝ) 90), d = 0) ∧
    (Turtle.run ⟨fun a => Real.cos (a * Real.pi / 180), fun a => Real.sin (a * Real.pi / 180),
        1, fun a => a⟩ ⟨50, 50, 0, true, 0, 1⟩ (circle Real.pi (0 : ℝ) 90)).x = 50 ∧
    (Turtle.run ⟨fun a => Real.cos (a * Real.pi / 180), fun a => Real.sin (a * Real.pi / 180),
        1, fun a => a⟩ ⟨50, 50, 0, true, 0, 1⟩ (circle Real.pi (0 : ℝ) 90)).y = 50 :=
  ⟨Or.inl rfl,
    circle_degenerate_stays 0 90 (Or.inl rfl)
      ⟨fun a => Real.cos (a * Real.pi / 180), fun a => Real.sin (a * Real.pi / 180),
        1, fun a => a⟩ ⟨50, 50, 0, true, 0, 1⟩⟩

/-- No whole number of turns of 360 degrees makes up for a quarter turn. -/
theorem quarter_turn_ne (s : ℝ) (hs : s = 1 ∨ s = -1) (k : ℤ) :
    (0 : ℝ) + ((30 : ℕ) : ℝ) * (s * (90 / 30)) + 360 * k ≠ 0 := by
  intro h
  rcases hs with hs | hs
  · have h2 : ((4 * k + 1 : ℤ) : ℝ) = 0 := by push_cast; rw [hs] at h; linarith
    have h3 : (4 * k + 1 : ℤ) = 0 := by exact_mod_cast h2
    omega
  · have h2 : ((4 * k - 1 : ℤ) : ℝ) = 0 := by push_cast; rw [hs] at h; linarith
    have h3 : (4 * k - 1 : ℤ) = 0 := by exact_mod_cast h2
    omega

theorem heading_after_quarter (sem : TurtleSem ℝ) (hdir : sem.dir = 1 ∨ sem.dir = -1)
    (hnorm : ∀ a, ∃ k : ℤ, sem.norm a = a + 360 * k) (t : Turtle ℝ) (h0 : t.heading = 0) :
    (Turtle.run sem t (circle Real.pi (0 : ℝ) 90)).heading ≠ t.heading := by
  rw [circle_eq, circleRotation_real]
  obtain ⟨k, hk⟩ := run_chordCalls_heading sem hnorm (circleStep Real.pi 0 90) (90 / 30) 30 t
  rw [hk, h0]
  exact quarter_turn_ne sem.dir hdir k

theorem floor_norm_spec (a : ℝ) : ∃ k : ℤ, a - 360 * (⌊a / 360⌋ : ℝ) = a + 360 * k :=
  ⟨-⌊a / 360⌋, by push_cast; ring⟩

/-- C6, as stated, fails: `circle(t, 0, 90)` from heading 0 ends with a heading different
from 0, for both rotation directions of `Right`, without normalisation of the heading
and with normalisation into `[0, 360)`. -/
theorem circle_zero_radius_turns :
    (Turtle.run ⟨fun a => Real.cos (a * Real.pi / 180), fun a => Real.sin (a * Real.pi / 180),
        1, fun a => a⟩ ⟨50, 50, 0, true, 0, 1⟩ (circle Real.pi (0 : ℝ) 90)).heading ≠ 0 ∧
    (Turtle.run ⟨fun a => Real.cos (a * Real.pi / 180), fun a => Real.sin (a * Real.pi / 180),
        -1, fun a => a⟩ ⟨50, 50, 0, true, 0, 1⟩ (circle Real.pi (0 : ℝ) 90)).heading ≠ 0 ∧
    (Turtle.run ⟨fun a => Real.cos (a * Real.pi / 180), fun a => Real.sin (a * Real.pi / 180),
        1, fun a => a - 360 * (⌊a / 360⌋ : ℝ)⟩ ⟨50, 50, 0, true, 0, 1⟩
        (circle Real.pi (0 : ℝ) 90)).heading ≠ 0 ∧
    (Turtle.run ⟨fun a => Real.cos (a * Real.pi / 180), fun a => Real.sin (a * Real.pi / 180),
        -1, fun a => a - 360 * (⌊a / 360⌋ : ℝ)⟩ ⟨50, 50, 0, true, 0, 1⟩
        (circle Real.pi (0 : ℝ) 90)).heading ≠ 0 :=
  ⟨heading_after_quarter _ (Or.inl rfl) (fun a => ⟨0, by simp⟩) _ rfl,
   heading_after_quarter _ (Or.inr rfl) (fun a => ⟨0, by simp⟩) _ rfl,
   heading_after_quarter _ (Or.inl rfl) floor_norm_spec _ rfl,
   heading_after_quarter _ (Or.inr rfl) floor_norm_spec _ rfl⟩

/-- C6, amended: for `radius = 0` and every extent, `circle(t, 0, extent)` leaves the
position, the pen and the style of the turtle as they were and turns the heading by
`extent` in the direction of `Right`: the heading after the call is the heading before
plus `dir * extent`, up to whole turns of 360 degrees. -/
theorem circle_zero_radius_effect (extent : ℝ) (sem : TurtleSem ℝ)
    (hnorm : ∀ a, ∃ k : ℤ, sem.norm a = a + 360 * k) (t : Turtle ℝ) :
    (Turtle.run sem t (circle Real.pi 0 extent)).x = t.x ∧
    (Turtle.run sem t (circle Real.pi 0 extent)).y = t.y ∧
    (Turtle.run sem t (circle Real.pi 0 extent)).penDown = t.penDown ∧
    (Turtle.run sem t (circle Real.pi 0 extent)).color = t.color ∧
    (Turtle.run sem t (circle Real.pi 0 extent)).size = t.size ∧
    ∃ k : ℤ, (Turtle.run sem t (circle Real.pi 0 extent)).heading
      = t.heading + sem.dir * extent + 360 * k := by
  rw [circle_eq]
  obtain ⟨h1, h2, h3⟩ := run_chordCalls_frame sem (circleStep Real.pi 0 extent)
    (circleRotation extent) 30 t
  obtain ⟨k, hk⟩ := run_chordCalls_heading sem hnorm (circleStep Real.pi 0 extent)
    (circleRotation extent) 30 t
  refine ⟨?_, ?_, h1, h2, h3, k, ?_⟩
  · rw [circleStep_zero 0 extent (Or.inl rfl)]
    exact (run_chordCalls_zero_step sem _ 30 t).1
  · rw [circleStep_zero 0 extent (Or.inl rfl)]
    exact (run_chordCalls_zero_step sem _ 30 t).2
  · rw [hk, circleRotation_real]
    push_cast
    ring

/-! ### The closed regular 30-gon -/

theorem geom30 (s : ℝ) (hs : s = 1 ∨ s = -1) :
    ∑ j in Finset.range 30, (Complex.exp (((s * (360 / 30) * Real.pi / 180 : ℝ) : ℂ) * Complex.I)) ^ j = 0 := by
  have hp : IsPrimitiveRoot (Complex.exp (2 * Real.pi * Complex.I / (30 : ℕ))) 30 :=
    Complex.isPrimitiveRoot_exp 30 (by norm_num)
  rcases hs with hs | hs
  · have e : Complex.exp (((s * (360 / 30) * Real.pi / 180 : ℝ) : ℂ) * Complex.I)
        = Complex.exp (2 * Real.pi * Complex.I / (30 : ℕ)) := by
      congr 1
      rw [hs]
      push_cast
      ring
    rw [e]
    exact hp.geom_sum_eq_zero (by norm_num)
  · have e : Complex.exp (((s * (360 / 30) * Real.pi / 180 : ℝ) : ℂ) * Complex.I)
        = (Complex.exp (2 * Real.pi * Complex.I / (30 : ℕ)))⁻¹ := by
      rw [← Complex.exp_neg]
      congr 1
      rw [hs]
      push_cast
      ring
    rw [e]
    exact hp.inv.geom_sum_eq_zero (by norm_num)

theorem polygon_sum (θ s : ℝ) (hs : s = 1 ∨ s = -1) :
    ∑ j in Finset.range 30, Complex.exp ((((θ + j * (s * (360 / 30))) * Real.pi / 180 : ℝ) : ℂ) * Complex.I) = 0 := by
  have h : ∀ j : ℕ, Complex.exp ((((θ + j * (s * (360 / 30))) * Real.pi / 180 : ℝ) : ℂ) * Complex.I)
      = Complex.exp (((θ * Real.pi / 180 : ℝ) : ℂ) * Complex.I)
        * (Complex.exp (((s * (360 / 30) * Real.pi / 180 : ℝ) : ℂ) * Complex.I)) ^ j := by
    intro j
    rw [← Complex.exp_nat_mul, ← Complex.exp_add]
    congr 1
    push_cast
    ring
  simp only [h]
  rw [← Finset.mul_sum, geom30 s hs, mul_zero]

theorem polygon_cos (θ s : ℝ) (hs : s = 1 ∨ s = -1) :
    ∑ j in Finset.range 30, Real.cos ((θ + j * (s * (360 / 30))) * Real.pi / 180) = 0 := by
  have h := congrArg Complex.re (polygon_sum θ s hs)
  rw [Complex.re_sum] at h
  simp only [Complex.exp_ofReal_mul_I_re, Complex.zero_re] at h
  exact h

theorem polygon_sin (θ s : ℝ) (hs : s = 1 ∨ s = -1) :
    ∑ j in Finset.range 30, Real.sin ((θ + j * (s * (360 / 30))) * Real.pi / 180) = 0 := by
  have h := congrArg Complex.im (polygon_sum θ s hs)
  rw [Complex.im_sum] at h
  simp only [Complex.exp_ofReal_mul_I_im, Complex.zero_im] at h
  exact h

theorem cosDeg_shift (a : ℝ) (k : ℤ) :
    Real.cos ((a + 360 * k) * Real.pi / 180) = Real.cos (a * Real.pi / 180) := by
  have e : (a + 360 * k) * Real.pi / 180 = a * Real.pi / 180 + k * (2 * Real.pi) := by ring
  rw [e, Real.cos_add_int_mul_two_pi]

theorem sinDeg_shift (a : ℝ) (k : ℤ) :
    Real.sin ((a + 360 * k) * Real.pi / 180) = Real.sin (a * Real.pi / 180) := by
  have e : (a + 360 * k) * Real.pi / 180 = a * Real.pi / 180 + k * (2 * Real.pi) := by ring
  rw [e, Real.sin_add_int_mul_two_pi]

/-- After `n` iterations the position is the start plus the `n` chords, the `j`-th chord
pointing along the start heading turned `j` times. -/
theorem run_chordCalls_position (sem : TurtleSem ℝ)
    (hcos : ∀ a, sem.cosDeg a = Real.cos (a * Real.pi / 180))
    (hsin : ∀ a, sem.sinDeg a = Real.sin (a * Real.pi / 180))
    (hnorm : ∀ a, ∃ k : ℤ, sem.norm a = a + 360 * k) (step rotation : ℝ) (n : Nat) :
    ∀ t : Turtle ℝ,
      (Turtle.run sem t (chordCalls step rotation n)).x
        = t.x + step * ∑ j in Finset.range n,
            Real.cos ((t.heading + j * (sem.dir * rotation)) * Real.pi / 180) ∧
      (Turtle.run sem t (chordCalls step rotation n)).y
        = t.y + step * ∑ j in Finset.range n,
            Real.sin ((t.heading + j * (sem.dir * rotation)) * Real.pi / 180) := by
  induction n with
  | zero => intro t; simp [Turtle.run, chordCalls]
  | succ n ih =>
    intro t
    rw [run_chordCalls_succ]
    obtain ⟨hx, hy⟩ := ih (Turtle.apply sem (Turtle.apply sem t (TurtleCall.Forward step))
      (TurtleCall.Right rotation))
    obtain ⟨k, hk⟩ := hnorm (t.heading + sem.dir * rotation)
    rw [hx, hy, Finset.sum_range_succ', Finset.sum_range_succ']
    simp only [Turtle.apply, hk, hcos, hsin]
    have ec : ∀ j : ℕ,
        Real.cos ((t.heading + sem.dir * rotation + 360 * k + j * (sem.dir * rotation))
          * Real.pi / 180)
        = Real.cos ((t.heading + ((j + 1 : ℕ) : ℝ) * (sem.dir * rotation)) * Real.pi / 180) := by
      intro j
      have e : (t.heading + sem.dir * rotation + 360 * k + j * (sem.dir * rotation))
            * Real.pi / 180
          = (t.heading + ((j + 1 : ℕ) : ℝ) * (sem.dir * rotation) + 360 * k)
            * Real.pi / 180 := by
        push_cast
        ring
      rw [e, cosDeg_shift]
    have es : ∀ j : ℕ,
        Real.sin ((t.heading + sem.dir * rotation + 360 * k + j * (sem.dir * rotation))
          * Real.pi / 180)
        = Real.sin ((t.heading + ((j + 1 : ℕ) : ℝ) * (sem.dir * rotation)) * Real.pi / 180) := by
      intro j
      have e : (t.heading + sem.dir * rotation + 360 * k + j * (sem.dir * rotation))
            * Real.pi / 180
          = (t.heading + ((j + 1 : ℕ) : ℝ) * (sem.dir * rotation) + 360 * k)
            * Real.pi / 180 := by
        push_cast
        ring
      rw [e, sinDeg_shift]
    simp only [ec, es]
    constructor
    · simp
      ring
    · simp
      ring

/-- C2: with `Forward(d)` moving the turtle by `d * (cos heading, sin heading)` (heading in
degrees) and `Right(a)` turning the heading by `a` degrees in either fixed direction,
with or without normalisation of the heading modulo 360: for every start position,
start heading and radius, after `circle(t, radius, 360)` the position is the start
position and the heading is the start heading modulo 360. -/
theorem circle_full_turn_closes (radius dir : ℝ) (hdir : dir = 1 ∨ dir = -1)
    (norm : ℝ → ℝ) (hnorm : ∀ a, ∃ k : ℤ, norm a = a + 360 * k) (t : Turtle ℝ) :
    (Turtle.run ⟨fun a => Real.cos (a * Real.pi / 180), fun a => Real.sin (a * Real.pi / 180),
        dir, norm⟩ t (circle Real.pi radius 360)).x = t.x ∧
    (Turtle.run ⟨fun a => Real.cos (a * Real.pi / 180), fun a => Real.sin (a * Real.pi / 180),
        dir, norm⟩ t (circle Real.pi radius 360)).y = t.y ∧
    ∃ k : ℤ,
      (Turtle.run ⟨fun a => Real.cos (a * Real.pi / 180),
          fun a => Real.sin (a * Real.pi / 180), dir, norm⟩ t
        (circle Real.pi radius 360)).heading = t.heading + 360 * k := by
  rw [circle_eq, circleRotation_real]
  obtain ⟨hx, hy⟩ := run_chordCalls_position
    ⟨fun a => Real.cos (a * Real.pi / 180), fun a => Real.sin (a * Real.pi / 180), dir, norm⟩
    (fun _ => rfl) (fun _ => rfl) hnorm (circleStep Real.pi radius 360) (360 / 30) 30 t
  obtain ⟨k, hk⟩ := run_chordCalls_heading
    ⟨fun a => Real.cos (a * Real.pi / 180), fun a => Real.sin (a * Real.pi / 180), dir, norm⟩
    hnorm (circleStep Real.pi radius 360) (360 / 30) 30 t
  refine ⟨?_, ?_, ?_⟩
  · rw [hx, polygon_cos t.heading dir hdir]
    ring
  · rw [hy, polygon_sin t.heading dir hdir]
    ring
  · rcases hdir with hd | hd
    · refine ⟨k + 1, ?_⟩
      rw [hk]
      simp only [hd]
      push_cast
      ring
    · refine ⟨k - 1, ?_⟩
      rw [hk]
      simp only [hd]
      push_cast
      ring

/-- C2 at the input the claim names: start (50, 50), heading 0, radius 10, with `Right`
adding to the heading and no normalisation. -/
theorem circle_full_turn_closes_witness :
    ((1 : ℝ) = 1 ∨ (1 : ℝ) = -1) ∧
    (∀ a : ℝ, ∃ k : ℤ, (fun b : ℝ => b) a = a + 360 * k) ∧
    (Turtle.run ⟨fun a => Real.cos (a * Real.pi / 180), fun a => Real.sin (a * Real.pi / 180),
        1, fun b => b⟩ ⟨50, 50, 0, true, 0, 1⟩ (circle Real.pi (10 : ℝ) 360)).x = 50 ∧
    (Turtle.run ⟨fun a => Real.cos (a * Real.pi / 180), fun a => Real.sin (a * Real.pi / 180),
        1, fun b => b⟩ ⟨50, 50, 0, true, 0, 1⟩ (circle Real.pi (10 : ℝ) 360)).y = 50 ∧
    ∃ k : ℤ,
      (Turtle.run ⟨fun a => Real.cos (a * Real.pi / 180),
          fun a => Real.sin (a * Real.pi / 180), 1, fun b => b⟩ ⟨50, 50, 0, true, 0, 1⟩
        (circle Real.pi (10 : ℝ) 360)).heading = (0 : ℝ) + 360 * k :=
  ⟨Or.inl rfl, fun a => ⟨0, by simp⟩,
    circle_full_turn_closes 10 1 (Or.inl rfl) (fun b => b) (fun a => ⟨0, by simp⟩)
      ⟨50, 50, 0, true, 0, 1⟩⟩

/-- C6 amended, at `extent = 90` from position (50, 50) with heading 0, `Right` adding
to the heading without normalisation. -/
theorem circle_zero_radius_effect_witness :
    (∀ a : ℝ, ∃ k : ℤ, (fun b : ℝ => b) a = a + 360 * k) ∧
    (Turtle.run ⟨fun a => Real.cos (a * Real.pi / 180), fun a => Real.sin (a * Real.pi / 180),
        1, fun b => b⟩ ⟨50, 50, 0, true, 0, 1⟩ (circle Real.pi (0 : ℝ) 90)).x = 50 ∧
    (Turtle.run ⟨fun a => Real.cos (a * Real.pi / 180), fun a => Real.sin (a * Real.pi / 180),
        1, fun b => b⟩ ⟨50, 50, 0, true, 0, 1⟩ (circle Real.pi (0 : ℝ) 90)).y = 50 ∧
    (Turtle.run ⟨fun a => Real.cos (a * Real.pi / 180), fun a => Real.sin (a * Real.pi / 180),
        1, fun b => b⟩ ⟨50, 50, 0, true, 0, 1⟩ (circle Real.pi (0 : ℝ) 90)).penDown = true ∧
    (Turtle.run ⟨fun a => Real.cos (a * Real.pi / 180), fun a => Real.sin (a * Real.pi / 180),
        1, fun b => b⟩ ⟨50, 50, 0, true, 0, 1⟩ (circle Real.pi (0 : ℝ) 90)).color = 0 ∧
    (Turtle.run ⟨fun a => Real.cos (a * Real.pi / 180), fun a => Real.sin (a * Real.pi / 180),
        1, fun b => b⟩ ⟨50, 50, 0, true, 0, 1⟩ (circle Real.pi (0 : ℝ) 90)).size = 1 ∧
    ∃ k : ℤ,
      (Turtle.run ⟨fun a => Real.cos (a * Real.pi / 180),
          fun a => Real.sin (a * Real.pi / 180), 1, fun b => b⟩ ⟨50, 50, 0, true, 0, 1⟩
        (circle Real.pi (0 : ℝ) 90)).heading = (0 : ℝ) + 1 * 90 + 360 * k :=
  ⟨fun a => ⟨0, by simp⟩,
    circle_zero_radius_effect 90
      ⟨fun a => Real.cos (a * Real.pi / 180), fun a => Real.sin (a * Real.pi / 180),
        1, fun b => b⟩ (fun a => ⟨0, by simp⟩) ⟨50, 50, 0, true, 0, 1⟩⟩

/-! ## `Modifiers.Contain` -/

theorem Modifiers.and_val (m m2 : Modifiers) : (m &&& m2).val = m.val &&& m2.val := by
  have h : (m &&& m2).val = (m.val &&& m2.val) % 2 ^ 32 := rfl
  rw [h]
  exact Nat.mod_eq_of_lt (lt_of_le_of_lt Nat.and_le_left m.isLt)

theorem Modifiers.contain_iff_bits (m m2 : Modifiers) :
    m.Contain m2 = true ↔ ∀ i, m2.val.testBit i = true → m.val.testBit i = true := by
  unfold Modifiers.Contain
  rw [beq_iff_eq, Fin.ext_iff, Modifiers.and_val]
  constructor
  · intro h i hi
    have := congrArg (fun n => n.testBit i) h
    simp only [Nat.testBit_and, hi, Bool.and_true] at this
    exact this
  · intro h
    apply Nat.eq_of_testBit_eq
    intro i
    rw [Nat.testBit_and]
    cases hb : m2.val.testBit i with
    | false => simp
    | true => simp [h i hb]

/-- C7: for all 32-bit modifier sets, `m.Contain(m2)` is true if and only if every bit
set in `m2` is set in `m`; `m.Contain(0)` and `m.Contain(m)` are true for every `m`; and
`Contain` is transitive. -/
theorem Modifiers.contain_spec :
    (∀ m m2 : Modifiers,
      m.Contain m2 = true ↔ ∀ i, m2.val.testBit i = true → m.val.testBit i = true) ∧
    (∀ m : Modifiers, m.Contain 0 = true) ∧
    (∀ m : Modifiers, m.Contain m = true) ∧
    (∀ m m2 m3 : Modifiers,
      m.Contain m2 = true → m2.Contain m3 = true → m.Contain m3 = true) := by
  refine ⟨Modifiers.contain_iff_bits, ?_, ?_, ?_⟩
  · intro m
    rw [Modifiers.contain_iff_bits]
    intro i hi
    simp at hi
  · intro m
    rw [Modifiers.contain_iff_bits]
    exact fun _ h => h
  · intro m m2 m3 h12 h23
    rw [Modifiers.contain_iff_bits] at *
    exact fun i hi => h12 i (h23 i hi)
/-- C7 at `m = 7`, `m2 = 3`, `m3 = 1` (ctrl, command and shift; ctrl and command; ctrl):
the two containments hold and transitivity gives the third. -/
theorem Modifiers.contain_spec_witness :
    Modifiers.Contain 7 3 = true ∧ Modifiers.Contain 3 1 = true ∧
    Modifiers.Contain 7 1 = true :=
  ⟨by decide, by decide, Modifiers.contain_spec.2.2.2 7 3 1 (by decide) (by decide)⟩

/-! ## The frame branch of `loop` -/

/-- C8: for a frame event handled with the flag `completed`, the recorded operations
contain the repaint request `InvalidateOp` if and only if `completed` is false, contain
the caption "BEIJING 2022" if and only if `completed` is true, and contain the image
and its paint operation in both cases. -/
theorem loop_frame_ops (completed : Bool) :
    ∃ ops, loopHandle completed Event.FrameEvent = LoopStep.Frame ops ∧
      (FrameOp.InvalidateOp ∈ ops ↔ completed = false) ∧
      ((∃ v b n, FrameOp.Label "BEIJING 2022" v b n ∈ ops) ↔ completed = true) ∧
      FrameOp.ImageOp ∈ ops ∧ FrameOp.PaintOp ∈ ops := by
  cases completed <;> simp [loopHandle]

/-! ## The button loop of `layoutDecorations` -/

theorem andNot_testBit (x y i : Nat) :
    (andNot x y).testBit i = (x.testBit i && !y.testBit i) := by
  unfold andNot
  rw [Nat.testBit_xor, Nat.testBit_and]
  cases x.testBit i <;> cases y.testBit i <;> rfl

theorem two_pow_and_eq_zero (k x : Nat) : 2 ^ k &&& x = 0 ↔ x.testBit k = false := by
  constructor
  · intro h
    have h2 := congrArg (fun n => n.testBit k) h
    simpa [Nat.testBit_and, Nat.testBit_two_pow_self] using h2
  · intro h
    apply Nat.eq_of_testBit_eq
    intro i
    rw [Nat.testBit_and, Nat.testBit_two_pow, Nat.zero_testBit]
    by_cases hki : k = i
    · subst hki; simp [h]
    · simp [hki]

theorem eq_zero_of_testBit (x : Nat) (h : ∀ i, x.testBit i = false) : x = 0 := by
  apply Nat.eq_of_testBit_eq
  intro i
  rw [h i, Nat.zero_testBit]

theorem shl1_two_pow (w k : Nat) (hk : k < w) :
    shl1 w (2 ^ k % 2 ^ w) = 2 ^ (k + 1) % 2 ^ w := by
  unfold shl1
  rw [Nat.mod_eq_of_lt (Nat.pow_lt_pow_right (by norm_num) hk), Nat.shiftLeft_eq,
    Nat.pow_one, Nat.pow_succ]

theorem laidFrom_nil (c : ActionConsts) (maximized : Bool) (acts : Nat) (n : Nat) :
    ∀ k, (∀ j, k ≤ j → acts.testBit j = false) → laidFrom c maximized acts n k = [] := by
  induction n with
  | zero => intro k _; rfl
  | succ n ih =>
    intro k h
    simp [laidFrom, h k (le_refl k), ih (k + 1) (fun j hj => h j (by omega))]

theorem testBit_of_lt_two_pow (x w j : Nat) (hx : x < 2 ^ w) (hj : w ≤ j) :
    x.testBit j = false :=
  Nat.testBit_lt_two_pow (lt_of_lt_of_le hx (Nat.pow_le_pow_right (by norm_num) hj))

/-- The loop invariant at bit `k`: the counter is bit `k` (or 0 past the word) and the
remaining actions are the bits of `acts` from `k` upwards. With `n` bits left the loop
returns, having laid out the buttons of `laidFrom` for those bits. -/
theorem buttonLoop_run (c : ActionConsts) (intBits : Nat) (maximized : Bool)
    (layoutButton : Nat → Icon → Point) (acts : Nat) (hacts : acts < 2 ^ c.bits) (n : Nat) :
    ∀ (k : Nat) (s : DecoState), k + n = c.bits → s.a = 2 ^ k % 2 ^ c.bits →
      (∀ j, s.actions.testBit j = (acts.testBit j && decide (k ≤ j))) →
      ∃ s1, (∀ fuel, n < fuel → buttonLoop c intBits maximized layoutButton fuel s = some s1) ∧
        s1.laid = s.laid ++ laidFrom c maximized acts n k ∧
        s1.size = (laidFrom c maximized acts n k).foldl
          (fun sz b => growSize intBits sz (layoutButton b.action b.icon)) s.size := by
  induction n with
  | zero =>
    intro k s hk _ hinv
    have h0 : s.actions = 0 := by
      apply eq_zero_of_testBit
      intro j
      rw [hinv j]
      by_cases hj : k ≤ j
      · rw [testBit_of_lt_two_pow acts c.bits j hacts (by omega)]
        rfl
      · simp [hj]
    refine ⟨s, ?_, by simp [laidFrom], by simp [laidFrom]⟩
    intro fuel hf
    obtain ⟨f, rfl⟩ : ∃ f, fuel = f + 1 := ⟨fuel - 1, by omega⟩
    simp [buttonLoop, h0]
  | succ n ih =>
    intro k s hk ha hinv
    have hkw : k < c.bits := by omega
    have ha2 : s.a = 2 ^ k := by
      rw [ha, Nat.mod_eq_of_lt (Nat.pow_lt_pow_right (by norm_num) hkw)]
    have hnext : shl1 c.bits s.a = 2 ^ (k + 1) % 2 ^ c.bits := by
      rw [ha, shl1_two_pow c.bits k hkw]
    by_cases h0 : s.actions = 0
    · have hnil : laidFrom c maximized acts (n + 1) k = [] := by
        apply laidFrom_nil
        intro j hj
        have := hinv j
        rw [h0, Nat.zero_testBit] at this
        simpa [hj] using this.symm
      refine ⟨s, ?_, by simp [hnil], by simp [hnil]⟩
      intro fuel hf
      obtain ⟨f, rfl⟩ : ∃ f, fuel = f + 1 := ⟨fuel - 1, by omega⟩
      simp [buttonLoop, h0]
    · by_cases hbit : s.a &&& s.actions = 0
      · have hk0 : acts.testBit k = false := by
          rw [ha2, two_pow_and_eq_zero, hinv k] at hbit
          simpa using hbit
        obtain ⟨s1, hrun, hlaid, hsize⟩ := ih (k + 1) { s with a := shl1 c.bits s.a }
          (by omega) hnext (by
            intro j
            show s.actions.testBit j = _
            rw [hinv j]
            by_cases hjk : j = k
            · subst hjk; simp [hk0]
            · have : decide (k ≤ j) = decide (k + 1 ≤ j) := by
                apply decide_eq_decide.mpr; omega
              rw [this])
        refine ⟨s1, ?_, ?_, ?_⟩
        · intro fuel hf
          obtain ⟨f, rfl⟩ : ∃ f, fuel = f + 1 := ⟨fuel - 1, by omega⟩
          rw [buttonLoop]
          simp only [h0, hbit, if_true, if_false]
          exact hrun f (by omega)
        · rw [hlaid]; simp [laidFrom, hk0]
        · rw [hsize]; simp [laidFrom, hk0]
      · have hk1 : acts.testBit k = true := by
          rw [ha2, two_pow_and_eq_zero, hinv k] at hbit
          simpa using hbit
        have hinv2 : ∀ j, (andNot s.actions s.a).testBit j
            = (acts.testBit j && decide (k + 1 ≤ j)) := by
          intro j
          rw [andNot_testBit, hinv j, ha2, Nat.testBit_two_pow]
          by_cases hjk : k = j
          · subst hjk; simp
          · have : decide (k ≤ j) = decide (k + 1 ≤ j) := by
              apply decide_eq_decide.mpr; omega
            rw [this]; simp [hjk]
        cases hicon : iconFor c maximized s.a with
        | none =>
          obtain ⟨s1, hrun, hlaid, hsize⟩ := ih (k + 1)
            { s with a := shl1 c.bits s.a, actions := andNot s.actions s.a }
            (by omega) hnext hinv2
          have hicon2 := hicon
          rw [ha2] at hicon2
          refine ⟨s1, ?_, ?_, ?_⟩
          · intro fuel hf
            obtain ⟨f, rfl⟩ : ∃ f, fuel = f + 1 := ⟨fuel - 1, by omega⟩
            rw [buttonLoop]
            simp only [h0, hbit, if_false, hicon]
            exact hrun f (by omega)
          · rw [hlaid]; simp [laidFrom, hk1, hicon2]
          · rw [hsize]; simp [laidFrom, hk1, hicon2]
        | some w =>
          obtain ⟨s1, hrun, hlaid, hsize⟩ := ih (k + 1)
            { a := shl1 c.bits s.a
              actions := andNot s.actions s.a
              size := growSize intBits s.size (layoutButton s.a w)
              laid := s.laid ++ [{ action := s.a, icon := w }] }
            (by omega) hnext hinv2
          have hicon2 := hicon
          rw [ha2] at hicon2
          refine ⟨s1, ?_, ?_, ?_⟩
          · intro fuel hf
            obtain ⟨f, rfl⟩ : ∃ f, fuel = f + 1 := ⟨fuel - 1, by omega⟩
            rw [buttonLoop]
            simp only [h0, hbit, if_false, hicon]
            exact hrun f (by omega)
          · rw [hlaid]; simp [laidFrom, hk1, hicon2, ha2]
          · rw [hsize]; simp [laidFrom, hk1, hicon2, ha2]

theorem laidFrom_mem (c : ActionConsts) (maximized : Bool) (acts : Nat) (n : Nat) :
    ∀ (k : Nat) (b : Button), b ∈ laidFrom c maximized acts n k ↔
      ∃ j, k ≤ j ∧ j < k + n ∧ acts.testBit j = true ∧
        iconFor c maximized (2 ^ j) = some b.icon ∧ b.action = 2 ^ j := by
  induction n with
  | zero =>
    intro k b
    simp only [laidFrom, List.not_mem_nil, false_iff]
    rintro ⟨j, h1, h2, _⟩
    omega
  | succ n ih =>
    intro k b
    rw [laidFrom, List.mem_append, ih (k + 1) b]
    constructor
    · rintro (h | ⟨j, h1, h2, h3⟩)
      · by_cases hk : acts.testBit k = true
        · rw [if_pos hk] at h
          cases hicon : iconFor c maximized (2 ^ k) with
          | none => rw [hicon] at h; simp at h
          | some w =>
            rw [hicon] at h
            simp only [List.mem_singleton] at h
            subst h
            exact ⟨k, le_refl k, by omega, hk, hicon, rfl⟩
        · rw [if_neg hk] at h
          simp at h
      · exact ⟨j, by omega, by omega, h3⟩
    · rintro ⟨j, h1, h2, h3, h4, h5⟩
      by_cases hjk : j = k
      · left
        subst hjk
        rw [if_pos h3, h4]
        simp only [List.mem_singleton]
        cases b
        simp_all
      · right
        exact ⟨j, by omega, by omega, h3, h4, h5⟩

theorem laidFrom_sorted (c : ActionConsts) (maximized : Bool) (acts : Nat) (n : Nat) :
    ∀ k, ((laidFrom c maximized acts n k).map Button.action).Sorted (· < ·) := by
  induction n with
  | zero => intro k; simp [laidFrom]
  | succ n ih =>
    intro k
    rw [laidFrom, List.map_append]
    refine List.pairwise_append.mpr ⟨?_, ih (k + 1), ?_⟩
    · by_cases hk : acts.testBit k = true
      · rw [if_pos hk]
        cases iconFor c maximized (2 ^ k) <;> simp
      · rw [if_neg hk]
        simp
    · intro x hx y hy
      have hx2 : x = 2 ^ k := by
        by_cases hk : acts.testBit k = true
        · rw [if_pos hk] at hx
          cases hicon : iconFor c maximized (2 ^ k) with
          | none => rw [hicon] at hx; simp at hx
          | some w => rw [hicon] at hx; simpa using hx
        · rw [if_neg hk] at hx
          simp at hx
      obtain ⟨b, hb, rfl⟩ := List.mem_map.mp hy
      obtain ⟨j, h1, _, _, _, h5⟩ := (laidFrom_mem c maximized acts n (k + 1) b).mp hb
      rw [hx2, h5]
      exact Nat.pow_lt_pow_right (by norm_num) (by omega)

theorem iconFor_eq_some (c : ActionConsts) (hc : c.WellFormed) (maximized : Bool)
    (a : Nat) (w : Icon) :
    iconFor c maximized a = some w ↔
      (a = c.ActionMinimize ∧ w = Icon.minimizeWindow) ∨
      (a = c.ActionMaximize ∧
        w = (if maximized then Icon.maximizedWindow else Icon.maximizeWindow)) ∨
      (a = c.ActionClose ∧ w = Icon.closeWindow) := by
  obtain ⟨_, _, _, _, hnd⟩ := hc
  simp only [List.nodup_cons, List.mem_cons, List.mem_singleton, not_or, List.not_mem_nil,
    not_false_eq_true, List.nodup_nil, and_true] at hnd
  obtain ⟨⟨h12, h13, h14⟩, ⟨h23, h24⟩, h34⟩ := hnd
  unfold iconFor
  by_cases h1 : a = c.ActionMinimize
  · subst h1
    simp [h12, h14, eq_comm]
  · by_cases h2 : a = c.ActionMaximize
    · subst h2
      simp [h1, h24, eq_comm]
    · by_cases h3 : a = c.ActionClose
      · subst h3
        simp [h1, h2, eq_comm]
      · simp [h1, h2, h3]

theorem addInt_eq (w : Nat) (hw : 1 ≤ w) (x y : Int) (h0 : 0 ≤ x + y)
    (h1 : x + y < 2 ^ (w - 1)) : addInt w x y = x + y := by
  unfold addInt
  have hp : (2 : Int) ^ w = 2 * 2 ^ (w - 1) := by
    obtain ⟨v, rfl⟩ : ∃ v, w = v + 1 := ⟨w - 1, by omega⟩
    simp [pow_succ, mul_comm]
  have hpos : (0 : Int) < 2 ^ (w - 1) := by positivity
  rw [Int.emod_eq_of_lt (by linarith) (by linarith)]
  ring

theorem foldl_growSize_X (w : Nat) (hw : 1 ≤ w) (ds : List Point) :
    ∀ sz : Point, (∀ d ∈ ds, 0 ≤ d.X) → 0 ≤ sz.X →
      sz.X + (ds.map Point.X).sum < 2 ^ (w - 1) →
      (ds.foldl (growSize w) sz).X = sz.X + (ds.map Point.X).sum := by
  induction ds with
  | nil => intro sz _ _ _; simp
  | cons d ds ih =>
    intro sz hd hsz hsum
    have hd0 : 0 ≤ d.X := hd d (List.mem_cons_self d ds)
    have hrest : 0 ≤ (ds.map Point.X).sum := by
      apply List.sum_nonneg
      intro x hx
      obtain ⟨e, he, rfl⟩ := List.mem_map.mp hx
      exact hd e (List.mem_cons_of_mem d he)
    simp only [List.map_cons, List.sum_cons] at hsum
    have hstep : (growSize w sz d).X = sz.X + d.X := by
      simp only [growSize]
      exact addInt_eq w hw sz.X d.X (by linarith) (by linarith)
    rw [List.foldl_cons, ih (growSize w sz d) (fun e he => hd e (List.mem_cons_of_mem d he))
      (by rw [hstep]; linarith) (by rw [hstep]; linarith), hstep]
    simp only [List.map_cons, List.sum_cons]
    ring

theorem foldl_growSize_Y (w : Nat) (ds : List Point) :
    ∀ sz : Point,
      sz.Y ≤ (ds.foldl (growSize w) sz).Y ∧
      (∀ d ∈ ds, d.Y ≤ (ds.foldl (growSize w) sz).Y) ∧
      ((ds.foldl (growSize w) sz).Y = sz.Y ∨ ∃ d ∈ ds, d.Y = (ds.foldl (growSize w) sz).Y) := by
  induction ds with
  | nil => intro sz; simp
  | cons d ds ih =>
    intro sz
    obtain ⟨h1, h2, h3⟩ := ih (growSize w sz d)
    have hY : (growSize w sz d).Y = if sz.Y < d.Y then d.Y else sz.Y := rfl
    rw [List.foldl_cons]
    refine ⟨?_, ?_, ?_⟩
    · rw [hY] at h1
      split_ifs at h1 <;> omega
    · intro e he
      rcases List.mem_cons.mp he with rfl | he
      · rw [hY] at h1
        split_ifs at h1 <;> omega
      · exact h2 e he
    · rcases h3 with h3 | ⟨e, he, h3⟩
      · rw [hY] at h3
        split_ifs at h3 with hlt
        · exact Or.inr ⟨d, List.mem_cons_self d ds, h3.symm⟩
        · exact Or.inl h3
      · exact Or.inr ⟨e, List.mem_cons_of_mem d he, h3⟩

theorem sum_lt_of_three (B : Int) (hB : 0 < B) (l : List Int) (hlen : l.length ≤ 3)
    (h : ∀ x ∈ l, 0 ≤ x ∧ 3 * x < B) : l.sum < B := by
  match l, hlen, h with
  | [], _, _ => simpa using hB
  | [a], _, h =>
    have := h a (by simp)
    simp only [List.sum_cons, List.sum_nil]
    omega
  | [a, b], _, h =>
    have := h a (by simp)
    have := h b (by simp)
    simp only [List.sum_cons, List.sum_nil]
    omega
  | [a, b, c], _, h =>
    have := h a (by simp)
    have := h b (by simp)
    have := h c (by simp)
    simp only [List.sum_cons, List.sum_nil]
    omega
  | _ :: _ :: _ :: _ :: _, hlen, _ => simp at hlen

theorem action_cases_bit (c : ActionConsts) (hc : c.WellFormed) (a : Nat)
    (h : a = c.ActionMinimize ∨ a = c.ActionMaximize ∨ a = c.ActionClose) :
    a ≠ c.ActionUnmaximize ∧ ∃ i, i < c.bits ∧ a = 2 ^ i := by
  obtain ⟨h1, h2, _, h4, hnd⟩ := hc
  simp only [List.nodup_cons, List.mem_cons, List.mem_singleton, not_or, List.not_mem_nil,
    not_false_eq_true, List.nodup_nil, and_true] at hnd
  obtain ⟨⟨_, h13, _⟩, ⟨h23, _⟩, h34⟩ := hnd
  rcases h with rfl | rfl | rfl
  · exact ⟨h13, h1⟩
  · exact ⟨h23, h2⟩
  · exact ⟨fun e => h34 e.symm, h4⟩

theorem andNot_lt (x y w : Nat) (hx : x < 2 ^ w) : andNot x y < 2 ^ w := by
  apply Nat.lt_pow_two_of_testBit
  intro i hi
  rw [andNot_testBit, testBit_of_lt_two_pow x w i hx hi]
  rfl

/-- C9: for every action set `d.Actions`, the button loop of `layoutDecorations` returns
(any fuel above the word width suffices and gives the same result); the buttons laid
out are in strictly ascending order of their action bit, and a button is laid out
exactly when its action is one of `ActionMinimize`, `ActionMaximize`, `ActionClose`
(with the icon of that action) and its bit is present in `d.Actions`; none is laid out
for `ActionUnmaximize`. The returned width is the sum of the buttons' widths and the
returned height is the largest of their heights, `(0, 0)` when there is no button.
The action constants are distinct single bits of the word, and button sizes are
non-negative and small enough that three widths do not overflow `int`. -/
theorem layoutDecorations_buttons (c : ActionConsts) (hc : c.WellFormed)
    (intBits : Nat) (hint : 1 ≤ intBits) (maximized : Bool)
    (layoutButton : Nat → Icon → Point)
    (hdims : ∀ a w, 0 ≤ (layoutButton a w).X ∧ 3 * (layoutButton a w).X < 2 ^ (intBits - 1) ∧
      0 ≤ (layoutButton a w).Y)
    (dActions : Nat) (hA : dActions < 2 ^ c.bits) :
    ∃ s : DecoState,
      (∀ fuel, c.bits < fuel →
        layoutButtons c intBits maximized layoutButton fuel dActions = some s) ∧
      (s.laid.map Button.action).Sorted (· < ·) ∧
      (∀ b : Button, b ∈ s.laid ↔
        ((b.action = c.ActionMinimize ∧ b.icon = Icon.minimizeWindow) ∨
         (b.action = c.ActionMaximize ∧
           b.icon = (if maximized then Icon.maximizedWindow else Icon.maximizeWindow)) ∨
         (b.action = c.ActionClose ∧ b.icon = Icon.closeWindow)) ∧
        b.action &&& dActions ≠ 0) ∧
      (∀ b ∈ s.laid, b.action ≠ c.ActionUnmaximize) ∧
      s.size.X = (s.laid.map (fun b => (layoutButton b.action b.icon).X)).sum ∧
      (∀ b ∈ s.laid, (layoutButton b.action b.icon).Y ≤ s.size.Y) ∧
      (s.laid = [] → s.size = ⟨0, 0⟩) ∧
      (s.laid ≠ [] → ∃ b ∈ s.laid, (layoutButton b.action b.icon).Y = s.size.Y) := by
  have hbits : 0 < c.bits := by
    obtain ⟨⟨i, hi, _⟩, _⟩ := hc
    omega
  have hacts := andNot_lt dActions c.ActionUnmaximize c.bits hA
  obtain ⟨s, hrun, hlaid, hsize⟩ := buttonLoop_run c intBits maximized layoutButton
    (andNot dActions c.ActionUnmaximize) hacts c.bits 0
    { a := 1, actions := andNot dActions c.ActionUnmaximize, size := ⟨0, 0⟩, laid := [] }
    (by omega)
    (by
      show 1 = 2 ^ 0 % 2 ^ c.bits
      rw [pow_zero, Nat.mod_eq_of_lt (Nat.one_lt_two_pow (by omega))])
    (by intro j; simp)
  simp only [List.nil_append] at hlaid
  rw [← hlaid] at hsize
  -- membership
  have hmem : ∀ b : Button, b ∈ s.laid ↔
      ((b.action = c.ActionMinimize ∧ b.icon = Icon.minimizeWindow) ∨
       (b.action = c.ActionMaximize ∧
         b.icon = (if maximized then Icon.maximizedWindow else Icon.maximizeWindow)) ∨
       (b.action = c.ActionClose ∧ b.icon = Icon.closeWindow)) ∧
      b.action &&& dActions ≠ 0 := by
    intro b
    rw [hlaid, laidFrom_mem]
    constructor
    · rintro ⟨j, _, _, hj, hicon, hact⟩
      rw [← hact, iconFor_eq_some c hc] at hicon
      refine ⟨hicon, ?_⟩
      rw [andNot_testBit, Bool.and_eq_true] at hj
      rw [hact, Ne, two_pow_and_eq_zero, hj.1]
      simp
    · rintro ⟨hcases, hne⟩
      have hcases2 : b.action = c.ActionMinimize ∨ b.action = c.ActionMaximize ∨
          b.action = c.ActionClose := by
        rcases hcases with h | h | h
        · exact Or.inl h.1
        · exact Or.inr (Or.inl h.1)
        · exact Or.inr (Or.inr h.1)
      obtain ⟨hnu, i, hi, hbi⟩ := action_cases_bit c hc b.action hcases2
      have hc2 := hc
      obtain ⟨_, _, ⟨u, _, hu⟩, _⟩ := hc2
      refine ⟨i, Nat.zero_le i, by omega, ?_, ?_, hbi⟩
      · rw [andNot_testBit, hu, Nat.testBit_two_pow]
        have hui : u ≠ i := by
          intro e
          apply hnu
          rw [hbi, hu, e]
        rw [hbi, Ne, two_pow_and_eq_zero] at hne
        simp [hui, hne]
      · rw [← hbi, iconFor_eq_some c hc]
        exact hcases
  have hsorted : (s.laid.map Button.action).Sorted (· < ·) := by
    rw [hlaid]
    exact laidFrom_sorted c maximized _ c.bits 0
  have hlen : s.laid.length ≤ 3 := by
    have hnd : (s.laid.map Button.action).Nodup := hsorted.nodup
    have hsub : s.laid.map Button.action
        ⊆ [c.ActionMinimize, c.ActionMaximize, c.ActionClose] := by
      intro x hx
      obtain ⟨b, hb, rfl⟩ := List.mem_map.mp hx
      rcases ((hmem b).mp hb).1 with h | h | h <;> simp [h.1]
    have := (List.subperm_of_subset hnd hsub).length_le
    simpa using this
  have hfold : s.size = (s.laid.map (fun b => layoutButton b.action b.icon)).foldl
      (growSize intBits) ⟨0, 0⟩ := by
    rw [hsize, List.foldl_map]
  have hpos : (0 : Int) < 2 ^ (intBits - 1) := by positivity
  have hsumlt : ((s.laid.map (fun b => layoutButton b.action b.icon)).map Point.X).sum
      < 2 ^ (intBits - 1) := by
    apply sum_lt_of_three _ hpos
    · simpa using hlen
    · intro x hx
      simp only [List.map_map, List.mem_map, Function.comp] at hx
      obtain ⟨b, _, rfl⟩ := hx
      exact ⟨(hdims b.action b.icon).1, (hdims b.action b.icon).2.1⟩
  obtain ⟨_, hY2, hY3⟩ := foldl_growSize_Y intBits
    (s.laid.map (fun b => layoutButton b.action b.icon)) ⟨0, 0⟩
  rw [← hfold] at hY2 hY3
  refine ⟨s, ?_, hsorted, hmem, ?_, ?_, ?_, ?_, ?_⟩
  · intro fuel hf
    exact hrun fuel hf
  · intro b hb
    have := ((hmem b).mp hb).1
    refine (action_cases_bit c hc b.action ?_).1
    rcases this with h | h | h
    · exact Or.inl h.1
    · exact Or.inr (Or.inl h.1)
    · exact Or.inr (Or.inr h.1)
  · rw [hfold, foldl_growSize_X intBits hint _ ⟨0, 0⟩ ?_ (le_refl _) (by simpa using hsumlt)]
    · show (0 : Int) + _ = _
      rw [zero_add, List.map_map]
      rfl
    · intro d hd
      obtain ⟨b, _, rfl⟩ := List.mem_map.mp hd
      exact (hdims b.action b.icon).1
  · intro b hb
    exact hY2 _ (List.mem_map_of_mem _ hb)
  · intro hnil
    rw [hfold, hnil]
    rfl
  · intro hne
    rcases hY3 with h0 | ⟨d, hd, hdY⟩
    · obtain ⟨b, hb⟩ := List.exists_mem_of_ne_nil _ hne
      refine ⟨b, hb, ?_⟩
      have h1 := hY2 _ (List.mem_map_of_mem (fun b => layoutButton b.action b.icon) hb)
      have h2 := (hdims b.action b.icon).2.2
      simp only at h0 h1
      omega
    · obtain ⟨b, hb, rfl⟩ := List.mem_map.mp hd
      exact ⟨b, hb, hdY⟩

/-- The loop run on a 64-bit word with minimize, maximize, unmaximize and close at bits
0, 1, 2 and 6: all four actions requested, three buttons laid out. -/
theorem layoutButtons_all_actions :
    layoutButtons ⟨64, 1, 2, 4, 64⟩ 64 false (fun _ _ => ⟨28, 28⟩) 65 71
      = some ⟨128, 0, ⟨84, 28⟩, [⟨1, Icon.minimizeWindow⟩, ⟨2, Icon.maximizeWindow⟩,
          ⟨64, Icon.closeWindow⟩]⟩ := by
  decide

/-- With every bit of the word set the loop runs through all 64 bits and still lays out
the same three buttons; the height is the largest button height. -/
theorem layoutButtons_all_bits :
    layoutButtons ⟨64, 1, 2, 4, 64⟩ 64 true (fun a _ => ⟨28, a⟩) 65 (2 ^ 64 - 1)
      = some ⟨0, 0, ⟨84, 64⟩, [⟨1, Icon.minimizeWindow⟩, ⟨2, Icon.maximizedWindow⟩,
          ⟨64, Icon.closeWindow⟩]⟩ := by
  decide

/-- Only unmaximize requested: the loop body never runs and nothing is laid out. -/
theorem layoutButtons_only_unmaximize :
    layoutButtons ⟨64, 1, 2, 4, 64⟩ 64 true (fun _ _ => ⟨28, 28⟩) 65 4
      = some ⟨1, 0, ⟨0, 0⟩, []⟩ := by
  decide

/-- C9 at a sample input: a 64-bit word with `ActionMinimize = 1`, `ActionMaximize = 2`,
`ActionUnmaximize = 4`, `ActionClose = 64`, the action set `71` (all four), a window
that is not maximized and buttons of 28 by 28 pixels. -/
theorem layoutDecorations_buttons_witness :
    (ActionConsts.mk 64 1 2 4 64).WellFormed ∧ 1 ≤ 64 ∧
    (∀ (a : Nat) (w : Icon),
      0 ≤ ((fun _ _ => ⟨28, 28⟩ : Nat → Icon → Point) a w).X ∧
      3 * ((fun _ _ => ⟨28, 28⟩ : Nat → Icon → Point) a w).X < 2 ^ (64 - 1) ∧
      0 ≤ ((fun _ _ => ⟨28, 28⟩ : Nat → Icon → Point) a w).Y) ∧
    71 < 2 ^ (ActionConsts.mk 64 1 2 4 64).bits ∧
    ∃ s : DecoState,
      (∀ fuel, (ActionConsts.mk 64 1 2 4 64).bits < fuel →
        layoutButtons (ActionConsts.mk 64 1 2 4 64) 64 false (fun _ _ => ⟨28, 28⟩) fuel 71
          = some s) ∧
      (s.laid.map Button.action).Sorted (· < ·) ∧
      (∀ b : Button, b ∈ s.laid ↔
        ((b.action = (ActionConsts.mk 64 1 2 4 64).ActionMinimize ∧
            b.icon = Icon.minimizeWindow) ∨
         (b.action = (ActionConsts.mk 64 1 2 4 64).ActionMaximize ∧
           b.icon = (if false then Icon.maximizedWindow else Icon.maximizeWindow)) ∨
         (b.action = (ActionConsts.mk 64 1 2 4 64).ActionClose ∧
            b.icon = Icon.closeWindow)) ∧
        b.action &&& 71 ≠ 0) ∧
      (∀ b ∈ s.laid, b.action ≠ (ActionConsts.mk 64 1 2 4 64).ActionUnmaximize) ∧
      s.size.X = (s.laid.map
        (fun b => ((fun _ _ => ⟨28, 28⟩ : Nat → Icon → Point) b.action b.icon).X)).sum ∧
      (∀ b ∈ s.laid,
        ((fun _ _ => ⟨28, 28⟩ : Nat → Icon → Point) b.action b.icon).Y ≤ s.size.Y) ∧
      (s.laid = [] → s.size = ⟨0, 0⟩) ∧
      (s.laid ≠ [] → ∃ b ∈ s.laid,
        ((fun _ _ => ⟨28, 28⟩ : Nat → Icon → Point) b.action b.icon).Y = s.size.Y) :=
  ⟨by decide, by decide, fun _ _ => by norm_num, by norm_num,
    layoutDecorations_buttons (ActionConsts.mk 64 1 2 4 64) (by decide)
      64 (by decide) false (fun _ _ => ⟨28, 28⟩) (fun _ _ => by norm_num) 71 (by norm_num)⟩

end BddGo
